import Mathlib

/-!
Verification of the splitfs FUSE filesystem (package split).

This file gives a shallow embedding, in Lean 4, of the core of splitfs:
the chunk arithmetic (ceilAndRemainder, getData), the chunk filename
codec (the format strings used by fileAsDir.ReadDirAll and the parser in
fileAsDir.Lookup), the attribute adjustments of fileAsDir.Attr and
fileChunk.Attr, directory enumeration (directory.ReadDirAll over the
sorted listing returned by ioutil.ReadDir), directory.Lookup, and the
windowed positional read of fileChunkHandle.Read.

Go strings are modelled as List Char; machine integers int64 and uint64
are modelled as Int and Nat with explicit wrapping (emod 2 ^ 64) where Go
would wrap.  Syscall results (stat size, stat inode, mtime, directory
listings, file content) are passed in as explicit arguments.  Fallible
operations return Option; a none result of a Lookup models the ENOENT
error value.
-/

namespace Splitfs

/-! ## Decimal digits: formatting and parsing

Models fmt.Sprintf verbs %d and %0Nd, and strconv.ParseInt(s, 10, 64).
-/

/-- Decimal digit value of a character, none when the character is not an
ASCII digit.  Models the per-character step of strconv.ParseInt. -/
def charToDigit (c : Char) : Option Nat :=
  if '0' ≤ c ∧ c ≤ '9' then some (c.toNat - '0'.toNat) else none

/-- Fold a run of decimal digit characters into a number, failing on the
first non-digit.  Models the digit loop of strconv.ParseUint. -/
def parseDigitsAux (acc : Nat) : List Char → Option Nat
  | [] => some acc
  | c :: cs =>
    match charToDigit c with
    | none => none
    | some d => parseDigitsAux (acc * 10 + d) cs

/-- Parse a non-empty all-digit string. -/
def parseDigitList (l : List Char) : Option Nat :=
  match l with
  | [] => none
  | _ :: _ => parseDigitsAux 0 l

/-- Models strconv.ParseInt(s, 10, 64): optional sign, non-empty digit
run, value restricted to the int64 range. -/
def parseInt64 : List Char → Option Int
  | [] => none
  | c :: cs =>
    if c = '-' then
      match parseDigitList cs with
      | none => none
      | some n => if (n : Int) ≤ 2 ^ 63 then some (-(n : Int)) else none
    else if c = '+' then
      match parseDigitList cs with
      | none => none
      | some n => if (n : Int) < 2 ^ 63 then some (n : Int) else none
    else
      match parseDigitList (c :: cs) with
      | none => none
      | some n => if (n : Int) < 2 ^ 63 then some (n : Int) else none

/-- Least-significant-first decimal digits of n, computed with explicit
fuel so that the definition is structural. -/
def natDigitsRevFuel : Nat → Nat → List Nat
  | 0, _ => []
  | fuel + 1, n => if n = 0 then [] else n % 10 :: natDigitsRevFuel fuel (n / 10)

/-- Value of a least-significant-first digit list. -/
def ofDigitsRev : List Nat → Nat
  | [] => 0
  | d :: t => d + 10 * ofDigitsRev t

/-- Decimal digit string of a natural number, most significant digit first.
Models the digits emitted by the fmt package for a non-negative value. -/
def decimalNat (n : Nat) : List Char :=
  if n = 0 then ['0'] else ((natDigitsRevFuel n n).map Nat.digitChar).reverse

/-- Left-pad a digit string with zeroes up to width w. -/
def padLeftZeros (w : Nat) (ds : List Char) : List Char :=
  List.replicate (w - ds.length) '0' ++ ds

/-- Models fmt.Sprintf %0wd on an int64 argument: zero padding to total
width w, a minus sign counting toward the width. -/
def padInt (w : Nat) (n : Int) : List Char :=
  if n < 0 then '-' :: padLeftZeros (w - 1) (decimalNat (-n).toNat)
  else padLeftZeros w (decimalNat n.toNat)

/-- Models fmt.Sprintf %d on an int64 argument. -/
def decimalInt (n : Int) : List Char :=
  if n < 0 then '-' :: decimalNat (-n).toNat else decimalNat n.toNat

/-! ## String primitives on List Char

Models the strings package functions used by fileAsDir.Lookup.
-/

/-- Models strings.HasSuffix. -/
def hasSuffix (l suf : List Char) : Bool :=
  decide (suf <:+ l)

/-- Models strings.TrimSuffix under the knowledge that the suffix is
present. -/
def trimSuffix (l suf : List Char) : List Char :=
  l.take (l.length - suf.length)

/-- Models strings.Split with a single-character separator. -/
def splitOnChar (sep : Char) : List Char → List (List Char)
  | [] => [[]]
  | c :: cs =>
    match splitOnChar sep cs with
    | [] => [[]]
    | h :: t => if c = sep then [] :: h :: t else (c :: h) :: t

/-- Models strings.LastIndex with a single-character needle; none models
the -1 return value. -/
def lastIndexOf (sep : Char) : List Char → Option Nat
  | [] => none
  | c :: cs =>
    match lastIndexOf sep cs with
    | some i => some (i + 1)
    | none => if c = sep then some 0 else none

/-- Models path.Join of two components, restricted to the cases splitfs
uses (no dot segments: Clean is omitted). -/
def joinPath (p q : List Char) : List Char :=
  if p = [] then q else if q = [] then p else p ++ '/' :: q

/-! ## The filesystem configuration (struct splitFS) and NewFS -/

/-- The splitFS struct.  The exclusion regexp is abstracted to the
predicate realised by the IsExcluded method, and the filename hash
factory to the function from the hashed bytes to the digest pair
returned by Digest (digest string and 64-bit inode base). -/
structure SplitFS where
  sourceDirectory : List Char
  chunkSize : Int
  isExcluded : List Char → Bool
  hashDigest : List Char → List Char × Nat
  filenameIncludesTotalChunks : Bool
  filenameIncludesMtime : Bool

/-- Models NewFS: the chunk-size guard (chunkSize must be larger than 0).
The source-directory stat and path canonicalisation are host effects and
are not modelled; the option loop is modelled by passing the final field
values directly. -/
def newFS (sourceDirectory : List Char) (chunkSize : Int)
    (isExcluded : List Char → Bool) (hashDigest : List Char → List Char × Nat)
    (includesTotalChunks includesMtime : Bool) : Option SplitFS :=
  if chunkSize ≤ 0 then none
  else some ⟨sourceDirectory, chunkSize, isExcluded, hashDigest,
             includesTotalChunks, includesMtime⟩

/-! ## Chunk arithmetic: ceilAndRemainder and getData -/

/-- Models ceilAndRemainder: big.Int DivMod is Euclidean division, so it
is Int.ediv and Int.emod; the quotient is bumped when the remainder is
positive.  The Go function panics when y == 0; the panic is modelled as
none. -/
def ceilAndRemainder (x y : Int) : Option (Int × Int) :=
  if y = 0 then none
  else
    let q := x.ediv y
    let r := x.emod y
    if r > 0 then some (q + 1, r) else some (q, r)

/-- The fileAsDirData struct: chunk count, size of the last chunk and the
source mtime truncated to whole seconds (held as Unix seconds). -/
structure FileAsDirData where
  numberOfChunks : Int
  lastChunkSize : Int
  mtime : Int
deriving DecidableEq, Repr

/-- Models fileAsDir.getData: the source stat is abstracted to the size
and the (second-truncated) mtime arguments. -/
def getData (chunkSize srcSize srcMtime : Int) : Option FileAsDirData :=
  match ceilAndRemainder srcSize chunkSize with
  | none => none
  | some qr => some ⟨qr.1, qr.2, srcMtime⟩

/-! ## The filename codec -/

def minFormatZeroes : Nat := 8

/-- The constant ".splitfs.chunk". -/
def chunkFileExtension : List Char :=
  ['.', 's', 'p', 'l', 'i', 't', 'f', 's', '.', 'c', 'h', 'u', 'n', 'k']

/-- The literal "mtime". -/
def mtimeLabel : List Char := ['m', 't', 'i', 'm', 'e']

/-- The literal "of". -/
def ofLabel : List Char := ['o', 'f']

/-- The optional mtime component ".mtime=%d" appended before the
extension when the mtime policy is on. -/
def mtimePart (fs : SplitFS) (mtime : Int) : List Char :=
  if fs.filenameIncludesMtime then '.' :: mtimeLabel ++ '=' :: decimalInt mtime
  else []

/-- The chunk filename produced inside fileAsDir.ReadDirAll: either
"%s_%08d_of_%08d%s.splitfs.chunk" or "%s_%08d%s.splitfs.chunk" according
to the total-chunks policy (idx is the 1-based index). -/
def formatChunkName (fs : SplitFS) (hash : List Char) (idx total mtime : Int) :
    List Char :=
  if fs.filenameIncludesTotalChunks then
    hash ++ '_' :: padInt minFormatZeroes idx ++
      '_' :: 'o' :: 'f' :: '_' :: padInt minFormatZeroes total ++
      mtimePart fs mtime ++ chunkFileExtension
  else
    hash ++ '_' :: padInt minFormatZeroes idx ++
      mtimePart fs mtime ++ chunkFileExtension

/-! ## Dirents and fileAsDir.ReadDirAll -/

/-- The fuse dirent type values used by splitfs. -/
inductive DirentType
  | unknown
  | file
  | dir
  | link
  | socket
  | block
  | charDev
  | fifo
deriving DecidableEq, Repr

/-- A fuse.Dirent. -/
structure Dirent where
  inode : Nat
  dtype : DirentType
  name : List Char
deriving DecidableEq, Repr

/-- Models fileAsDir.ReadDirAll: one synthetic entry per chunk with
1-based indices in the names and inode inodeBase + (i + 1) under uint64
arithmetic. -/
def fileAsDirReadDirAll (fs : SplitFS) (hash : List Char) (inodeBase : Nat)
    (srcSize srcMtime : Int) : Option (List Dirent) :=
  match getData fs.chunkSize srcSize srcMtime with
  | none => none
  | some data =>
    some ((List.range data.numberOfChunks.toNat).map fun i =>
      { inode := (inodeBase + (i + 1)) % 2 ^ 64
        dtype := .file
        name := formatChunkName fs hash ((i : Int) + 1) data.numberOfChunks data.mtime })

/-! ## fileAsDir.Lookup -/

/-- The fileChunk struct: 0-based chunk index, byte offset and size. -/
structure FileChunk where
  chunk : Int
  offset : Int
  size : Int
deriving DecidableEq, Repr

/-- Lookup lines 415-418: require and strip the ".splitfs.chunk"
extension. -/
def lookupStripExt (name : List Char) : Option (List Char) :=
  if hasSuffix name chunkFileExtension then some (trimSuffix name chunkFileExtension)
  else none

/-- Lookup lines 419-435: when the mtime policy is on, split off the last
".mtime=<int>" component and parse it; otherwise pass the name through
with the zero mtime placeholder. -/
def lookupMtime (fs : SplitFS) (name : List Char) : Option (Int × List Char) :=
  if fs.filenameIncludesMtime then
    match lastIndexOf '.' name with
    | none => none
    | some dotIndex =>
      match splitOnChar '=' (name.drop (dotIndex + 1)) with
      | [lab, val] =>
        if lab = mtimeLabel then
          match parseInt64 val with
          | none => none
          | some m => some (m, name.take dotIndex)
        else none
      | _ => none
  else some (0, name)

/-- Lookup lines 436-453: split on the underscore and take either 4
components (with the literal "of" third) or 2 components according to
the total-chunks policy. -/
def lookupParts (fs : SplitFS) (name : List Char) :
    Option (List Char × List Char × Option (List Char)) :=
  match splitOnChar '_' name, fs.filenameIncludesTotalChunks with
  | [h, c, o, t], true => if o = ofLabel then some (h, c, some t) else none
  | [h, c], false => some (h, c, none)
  | _, _ => none

/-- Lookup lines 454-493: hash comparison, index parse with the
non-negativity guard, decrement to the 0-based index, getData, total and
mtime validation, range check, and construction of the fileChunk. -/
def lookupResolve (fs : SplitFS) (hash : List Char) (srcSize srcMtime mtimeParsed : Int)
    (hashPart chunkPart : List Char) (totalPart : Option (List Char)) :
    Option FileChunk :=
  if hashPart = hash then
    match parseInt64 chunkPart with
    | none => none
    | some chunkParsed =>
      if chunkParsed < 0 then none
      else
        let chunk := chunkParsed - 1
        match getData fs.chunkSize srcSize srcMtime with
        | none => none
        | some data =>
          let totalOk : Option Unit :=
            if fs.filenameIncludesTotalChunks then
              match totalPart with
              | none => none
              | some t =>
                match parseInt64 t with
                | none => none
                | some total => if total = data.numberOfChunks then some () else none
            else some ()
          match totalOk with
          | none => none
          | some _ =>
            if fs.filenameIncludesMtime ∧ mtimeParsed ≠ data.mtime then none
            else if chunk ≥ data.numberOfChunks then none
            else some
              { chunk := chunk
                offset := chunk * fs.chunkSize
                size := if chunk = data.numberOfChunks - 1 then data.lastChunkSize
                        else fs.chunkSize }
  else none

/-- Models fileAsDir.Lookup (lines 414-493) as the composition of its
four stages.  A none result models the ENOENT error. -/
def fileAsDirLookup (fs : SplitFS) (hash : List Char) (srcSize srcMtime : Int)
    (name : List Char) : Option FileChunk :=
  match lookupStripExt name with
  | none => none
  | some name1 =>
    match lookupMtime fs name1 with
    | none => none
    | some mn =>
      match lookupParts fs mn.2 with
      | none => none
      | some (hashPart, chunkPart, totalPart) =>
        lookupResolve fs hash srcSize srcMtime mn.1 hashPart chunkPart totalPart

/-! ## Attributes -/

/-- The subset of fuse.Attr the claims are about.  The mode field holds
the Go os.FileMode bits (permissions in the low 9 bits, type bits in the
high bits). -/
structure Attr where
  inode : Nat
  size : Nat
  blocks : Nat
  mode : Nat
deriving DecidableEq, Repr

/-- The Go constant os.ModeDir, bit 31 of os.FileMode. -/
def modeDirBit : Nat := 2 ^ 31

/-- uint64 conversion of an int64 value: two-complement wrap. -/
def u64 (n : Int) : Nat := (n.emod (2 ^ 64)).toNat

/-- Models fileAsDir.Attr (lines 348-354): start from the stat-derived
attributes of the source file and replace the mode with
(mode AND 0555) OR os.ModeDir. -/
def fileAsDirAttr (a : Attr) : Attr :=
  { a with mode := (a.mode &&& 0o555) ||| modeDirBit }

/-- Models fileChunk.Attr (lines 505-514): start from the stat-derived
attributes of the source file, add the 1-based chunk index to the inode
under uint64 wrap, and override size and blocks. -/
def fileChunkAttr (a : Attr) (c : FileChunk) : Option Attr :=
  match ceilAndRemainder c.size 512 with
  | none => none
  | some qr => some
    { a with
      inode := (a.inode + u64 (c.chunk + 1)) % 2 ^ 64
      size := u64 c.size
      blocks := u64 qr.1 }

/-! ## directory.ReadDirAll and directory.Lookup -/

/-- The mode kinds distinguished by the Go code. -/
inductive FileModeKind
  | regular
  | dir
  | symlink
  | socket
  | blockDevice
  | charDevice
  | namedPipe
  | other
deriving DecidableEq, Repr

/-- One entry of the host directory listing (the os.FileInfo fields
splitfs reads). -/
structure HostFileInfo where
  name : List Char
  inode : Nat
  mode : FileModeKind
deriving DecidableEq, Repr

/-- The dirent-type mapping of directory.ReadDirAll lines 202-222.  The
Go mode of a character device carries os.ModeDevice as well, so the
device branch wins and a character device also maps to DT_Block. -/
def direntTypeOf (mode : FileModeKind) (excluded : Bool) : DirentType :=
  match mode with
  | .regular => if excluded then .file else .dir
  | .dir => .dir
  | .symlink => .link
  | .socket => .socket
  | .blockDevice => .block
  | .charDevice => .block
  | .namedPipe => .fifo
  | .other => .unknown

/-- The comparison ioutil.ReadDir sorts with: ascending by entry name. -/
def byName (a b : HostFileInfo) : Prop := a.name ≤ b.name

instance : DecidableRel byName := fun a b =>
  inferInstanceAs (Decidable (a.name ≤ b.name))

instance : IsTotal HostFileInfo byName := ⟨fun a b => le_total a.name b.name⟩

instance : IsTrans HostFileInfo byName := ⟨fun _ _ _ hab hbc => le_trans hab hbc⟩

/-- Models ioutil.ReadDir: the raw host listing sorted by filename. -/
def ioutilReadDir (entries : List HostFileInfo) : List HostFileInfo :=
  List.insertionSort byName entries

/-- Models directory.ReadDirAll (lines 188-230): list the source
directory via ioutil.ReadDir and map each entry to a dirent, testing
exclusion against the absolute child path. -/
def directoryReadDirAll (fs : SplitFS) (dirRel : List Char)
    (entries : List HostFileInfo) : List Dirent :=
  (ioutilReadDir entries).map fun f =>
    { inode := f.inode
      dtype := direntTypeOf f.mode
        (fs.isExcluded (joinPath (joinPath fs.sourceDirectory dirRel) f.name))
      name := f.name }

/-- The node variants directory.Lookup can return. -/
inductive LookupNode
  | dirNode (rel : List Char)
  | directFileNode (rel : List Char)
  | symlinkNode (rel : List Char)
  | fileAsDirNode (rel : List Char) (hash : List Char) (inodeBase : Nat)
  | unimplemented
deriving DecidableEq, Repr

/-- Models directory.Lookup (lines 232-265) given the mode the child
stat reported: a regular non-excluded child becomes a fileAsDir carrying
the digest pair of the root-relative path. -/
def directoryLookup (fs : SplitFS) (dirRel childName : List Char)
    (childMode : FileModeKind) : LookupNode :=
  let rel := joinPath dirRel childName
  let full := joinPath (joinPath fs.sourceDirectory dirRel) childName
  match childMode with
  | .dir => .dirNode rel
  | .regular =>
    if fs.isExcluded full then .directFileNode rel
    else
      let hd := fs.hashDigest rel
      .fileAsDirNode rel hd.1 hd.2
  | .symlink => .symlinkNode rel
  | _ => .unimplemented

/-! ## fileChunk.Open and fileChunkHandle.Read -/

/-- The per-handle state: the file descriptor position.  ReadAt is
positional and neither consults nor moves it. -/
structure FileHandle where
  pos : Int
deriving DecidableEq, Repr

/-- Models fileChunk.Open lines 524-528: seek to the chunk offset when
it is non-zero (a freshly opened descriptor is at position 0). -/
def fileChunkOpen (c : FileChunk) : FileHandle :=
  { pos := if c.offset ≠ 0 then c.offset else 0 }

/-- Models os.File.ReadAt into a buffer of length n at offset off,
truncated to bytes[:read]: reads the available bytes from off on, short
at end of file (io.EOF is not surfaced as an error); a negative offset
is an error. -/
def readAt (content : List Nat) (off : Int) (n : Nat) : Option (List Nat) :=
  if off < 0 then none else some ((content.drop off.toNat).take n)

/-- Models fileChunkHandle.Read (lines 542-558): window the request into
the chunk, clamp the size at the chunk end and floor it at zero, then
read positionally at request offset plus chunk offset.  The handle state
is returned unchanged because ReadAt does not move the position. -/
def fileChunkHandleRead (content : List Nat) (c : FileChunk) (h : FileHandle)
    (reqOffset : Int) (reqSize : Nat) : Option (List Nat) × FileHandle :=
  let trueOffset := reqOffset + c.offset
  let clamped := if (reqSize : Int) > c.size - reqOffset then c.size - reqOffset
                 else (reqSize : Int)
  let trueSize := if clamped < 0 then 0 else clamped
  (readAt content trueOffset trueSize.toNat, h)

/-- A sequence of read requests against one handle, used to express that
earlier reads cannot influence later ones. -/
def runRequests (content : List Nat) (c : FileChunk) (h : FileHandle)
    (reqs : List (Int × Nat)) : FileHandle :=
  reqs.foldl (fun st r => (fileChunkHandleRead content c st r.1 r.2).2) h

/-! ## Concrete sample data for closed evaluations -/

/-- An exclusion predicate matching nothing (a nil excludeRegexp). -/
def noExclusion : List Char → Bool := fun _ => false

/-- A digest function returning the digest string "h" and inode base
2000 for every input, standing in for a concrete hash run. -/
def sampleDigest : List Char → List Char × Nat := fun _ => (['h'], 2000)

/-- A concrete configuration: chunk size 10 bytes, total-chunks policy
on, mtime policy off (the NewFS defaults). -/
def sampleFS : SplitFS := ⟨[], 10, noExclusion, sampleDigest, true, false⟩

/-- A host directory entry named "a". -/
def hostA : HostFileInfo := ⟨['a'], 1, FileModeKind.regular⟩

/-- A host directory entry named "b". -/
def hostB : HostFileInfo := ⟨['b'], 2, FileModeKind.regular⟩

/-- The name "h_00000001_of_00000001.splitfs.chunk". -/
def exactMultipleName : List Char :=
  ['h', '_', '0', '0', '0', '0', '0', '0', '0', '1', '_', 'o', 'f', '_',
   '0', '0', '0', '0', '0', '0', '0', '1'] ++ chunkFileExtension

/-- The name "h_00000000_of_00000001.splitfs.chunk", carrying the
1-based chunk index 0. -/
def indexZeroName : List Char :=
  ['h', '_', '0', '0', '0', '0', '0', '0', '0', '0', '_', 'o', 'f', '_',
   '0', '0', '0', '0', '0', '0', '0', '1'] ++ chunkFileExtension

/-- The formatted name of the second of three chunks under sampleFS. -/
def roundtripName : List Char := formatChunkName sampleFS ['h'] 2 3 0

/-! ## Lemmas about decimal formatting and parsing -/

theorem charToDigit_digitChar {d : Nat} (h : d < 10) :
    charToDigit (Nat.digitChar d) = some d := by
  interval_cases d <;> decide

theorem digitChar_is_digit {d : Nat} (h : d < 10) :
    '0' ≤ Nat.digitChar d ∧ Nat.digitChar d ≤ '9' := by
  interval_cases d <;> decide

theorem parseDigitsAux_append (acc : Nat) (xs ys : List Char) :
    parseDigitsAux acc (xs ++ ys) =
      (parseDigitsAux acc xs).bind fun a => parseDigitsAux a ys := by
  induction xs generalizing acc with
  | nil => simp [parseDigitsAux]
  | cons c cs ih =>
    simp only [List.cons_append, parseDigitsAux]
    cases charToDigit c with
    | none => rfl
    | some d => simpa using ih _

theorem ofDigitsRev_natDigitsRevFuel {fuel n : Nat} (h : n ≤ fuel) :
    ofDigitsRev (natDigitsRevFuel fuel n) = n := by
  induction fuel generalizing n with
  | zero =>
    have : n = 0 := by omega
    simp [this, natDigitsRevFuel, ofDigitsRev]
  | succ f ih =>
    by_cases h0 : n = 0
    · simp [natDigitsRevFuel, h0, ofDigitsRev]
    · have hdiv : n / 10 ≤ f := by
        have := Nat.div_lt_self (Nat.pos_of_ne_zero h0) (by norm_num : 1 < 10)
        omega
      simp only [natDigitsRevFuel, h0, if_false, ofDigitsRev, ih hdiv]
      omega

theorem natDigitsRevFuel_lt (fuel n : Nat) : ∀ d ∈ natDigitsRevFuel fuel n, d < 10 := by
  induction fuel generalizing n with
  | zero => simp [natDigitsRevFuel]
  | succ f ih =>
    by_cases h0 : n = 0
    · simp [natDigitsRevFuel, h0]
    · simp only [natDigitsRevFuel, h0, if_false]
      intro d hd
      rcases List.mem_cons.mp hd with h | h
      · omega
      · exact ih _ d h

theorem parseDigitsAux_rev_map (l : List Nat) (hl : ∀ d ∈ l, d < 10) (acc : Nat) :
    parseDigitsAux acc ((l.map Nat.digitChar).reverse) =
      some (acc * 10 ^ l.length + ofDigitsRev l) := by
  induction l generalizing acc with
  | nil => simp [parseDigitsAux, ofDigitsRev]
  | cons d t ih =>
    have hd : d < 10 := hl d (List.mem_cons_self _ _)
    have ht : ∀ x ∈ t, x < 10 := fun x hx => hl x (List.mem_cons_of_mem _ hx)
    simp only [List.map_cons, List.reverse_cons]
    rw [parseDigitsAux_append, ih ht]
    simp only [Option.some_bind, parseDigitsAux, charToDigit_digitChar hd, ofDigitsRev,
      List.length_cons]
    congr 1
    ring

theorem parseDigitList_eq {l : List Char} (h : l ≠ []) :
    parseDigitList l = parseDigitsAux 0 l := by
  cases l with
  | nil => exact absurd rfl h
  | cons c cs => rfl

theorem decimalNat_ne_nil (n : Nat) : decimalNat n ≠ [] := by
  unfold decimalNat
  by_cases h0 : n = 0
  · simp [h0]
  · cases n with
    | zero => exact absurd rfl h0
    | succ m =>
      simp [natDigitsRevFuel]

theorem parseDigitList_decimalNat (n : Nat) : parseDigitList (decimalNat n) = some n := by
  by_cases h0 : n = 0
  · subst h0; rfl
  · rw [parseDigitList_eq (decimalNat_ne_nil n)]
    unfold decimalNat
    rw [if_neg h0, parseDigitsAux_rev_map _ (natDigitsRevFuel_lt n n) 0,
      ofDigitsRev_natDigitsRevFuel (le_refl n)]
    simp

theorem parseDigitsAux_zeros (k : Nat) (l : List Char) :
    parseDigitsAux 0 (List.replicate k '0' ++ l) = parseDigitsAux 0 l := by
  induction k with
  | zero => simp
  | succ k ih =>
    have h0 : charToDigit '0' = some 0 := rfl
    simp only [List.replicate_succ, List.cons_append, parseDigitsAux, h0]
    simpa using ih

theorem padLeftZeros_ne_nil (w : Nat) {ds : List Char} (h : ds ≠ []) :
    padLeftZeros w ds ≠ [] := by
  unfold padLeftZeros
  intro hc
  rcases List.append_eq_nil.mp hc with ⟨_, h2⟩
  exact h h2

theorem parseDigitList_pad (w n : Nat) :
    parseDigitList (padLeftZeros w (decimalNat n)) = some n := by
  rw [parseDigitList_eq (padLeftZeros_ne_nil w (decimalNat_ne_nil n))]
  unfold padLeftZeros
  rw [parseDigitsAux_zeros, ← parseDigitList_eq (decimalNat_ne_nil n),
    parseDigitList_decimalNat]

theorem decimalNat_all_digit (n : Nat) : ∀ c ∈ decimalNat n, '0' ≤ c ∧ c ≤ '9' := by
  unfold decimalNat
  by_cases h0 : n = 0
  · simp [h0]
  · rw [if_neg h0]
    intro c hc
    rw [List.mem_reverse, List.mem_map] at hc
    obtain ⟨d, hd, rfl⟩ := hc
    exact digitChar_is_digit (natDigitsRevFuel_lt n n d hd)

theorem padLeftZeros_all_digit (w n : Nat) :
    ∀ c ∈ padLeftZeros w (decimalNat n), '0' ≤ c ∧ c ≤ '9' := by
  unfold padLeftZeros
  intro c hc
  rcases List.mem_append.mp hc with h | h
  · rw [List.eq_of_mem_replicate h]; exact ⟨le_refl _, by decide⟩
  · exact decimalNat_all_digit n c h

theorem parseInt64_digits {l : List Char} (hne : l ≠ [])
    (hd : ∀ c ∈ l, '0' ≤ c ∧ c ≤ '9') {n : Nat} (hp : parseDigitList l = some n)
    (hr : (n : Int) < 2 ^ 63) : parseInt64 l = some (n : Int) := by
  cases l with
  | nil => exact absurd rfl hne
  | cons c cs =>
    have hc : '0' ≤ c ∧ c ≤ '9' := hd c (List.mem_cons_self _ _)
    have hminus : c ≠ '-' := by
      intro h; subst h; exact absurd hc.1 (by decide)
    have hplus : c ≠ '+' := by
      intro h; subst h; exact absurd hc.1 (by decide)
    simp only [parseInt64, if_neg hminus, if_neg hplus, hp, if_pos hr]

theorem padInt_nonneg {w : Nat} {n : Int} (h : 0 ≤ n) :
    padInt w n = padLeftZeros w (decimalNat n.toNat) := by
  unfold padInt
  rw [if_neg (by omega)]

theorem parseInt64_padInt {w : Nat} {k : Int} (h0 : 0 ≤ k) (h1 : k < 2 ^ 63) :
    parseInt64 (padInt w k) = some k := by
  rw [padInt_nonneg h0]
  rw [parseInt64_digits (padLeftZeros_ne_nil w (decimalNat_ne_nil k.toNat))
    (padLeftZeros_all_digit w k.toNat) (parseDigitList_pad w k.toNat) (by omega),
    Int.toNat_of_nonneg h0]

theorem parseInt64_decimalInt {m : Int} (h0 : -(2 ^ 63) ≤ m) (h1 : m < 2 ^ 63) :
    parseInt64 (decimalInt m) = some m := by
  unfold decimalInt
  by_cases hm : m < 0
  · rw [if_pos hm]
    have hle : (((-m).toNat : Nat) : Int) ≤ 2 ^ 63 := by omega
    have hmn : (((-m).toNat : Nat) : Int) = -m := Int.toNat_of_nonneg (by omega)
    simp [parseInt64, parseDigitList_decimalNat, hle, hmn]
    omega
  · rw [if_neg hm]
    rw [parseInt64_digits (decimalNat_ne_nil m.toNat)
      (decimalNat_all_digit m.toNat) (parseDigitList_decimalNat m.toNat) (by omega),
      Int.toNat_of_nonneg (by omega)]

/-! ## Lemmas about the string primitives -/

theorem digit_ne_of {c : Char} (sep : Char) (hc : '0' ≤ c ∧ c ≤ '9')
    (hsep : ¬('0' ≤ sep ∧ sep ≤ '9')) : c ≠ sep :=
  fun h => hsep (h ▸ hc)

theorem splitOnChar_ne_nil (sep : Char) (l : List Char) : splitOnChar sep l ≠ [] := by
  cases l with
  | nil => simp [splitOnChar]
  | cons c cs =>
    simp only [splitOnChar]
    rcases h : splitOnChar sep cs with _ | ⟨h1, t1⟩
    · simp
    · by_cases hc : c = sep <;> simp [hc]

theorem splitOnChar_no_sep {sep : Char} {l : List Char} (h : ∀ c ∈ l, c ≠ sep) :
    splitOnChar sep l = [l] := by
  induction l with
  | nil => rfl
  | cons c cs ih =>
    have hc : c ≠ sep := h c (List.mem_cons_self _ _)
    have hcs : ∀ x ∈ cs, x ≠ sep := fun x hx => h x (List.mem_cons_of_mem _ hx)
    simp only [splitOnChar, ih hcs, if_neg hc]

theorem splitOnChar_append {sep : Char} {xs : List Char} (ys : List Char)
    (h : ∀ c ∈ xs, c ≠ sep) :
    splitOnChar sep (xs ++ sep :: ys) = xs :: splitOnChar sep ys := by
  induction xs with
  | nil =>
    simp only [List.nil_append, splitOnChar]
    rcases hs : splitOnChar sep ys with _ | ⟨h1, t1⟩
    · exact absurd hs (splitOnChar_ne_nil sep ys)
    · simp
  | cons c cs ih =>
    have hc : c ≠ sep := h c (List.mem_cons_self _ _)
    have hcs : ∀ x ∈ cs, x ≠ sep := fun x hx => h x (List.mem_cons_of_mem _ hx)
    have hsplit : splitOnChar sep (cs.append (sep :: ys)) = cs :: splitOnChar sep ys := ih hcs
    simp only [List.cons_append, splitOnChar, hsplit]
    simp [hc]

theorem lastIndexOf_none {sep : Char} {l : List Char} (h : ∀ c ∈ l, c ≠ sep) :
    lastIndexOf sep l = none := by
  induction l with
  | nil => rfl
  | cons c cs ih =>
    have hc : c ≠ sep := h c (List.mem_cons_self _ _)
    have hcs : ∀ x ∈ cs, x ≠ sep := fun x hx => h x (List.mem_cons_of_mem _ hx)
    simp only [lastIndexOf, ih hcs, if_neg hc]

theorem lastIndexOf_append {sep : Char} (xs : List Char) {ys : List Char}
    (h : ∀ c ∈ ys, c ≠ sep) :
    lastIndexOf sep (xs ++ sep :: ys) = some xs.length := by
  induction xs with
  | nil => simp [lastIndexOf, lastIndexOf_none h]
  | cons c cs ih =>
    have hidx : lastIndexOf sep (cs.append (sep :: ys)) = some cs.length := ih
    simp only [List.cons_append, lastIndexOf, hidx, List.length_cons]

theorem hasSuffix_append (l suf : List Char) : hasSuffix (l ++ suf) suf = true := by
  simp [hasSuffix, List.suffix_append]

theorem trimSuffix_append (l suf : List Char) : trimSuffix (l ++ suf) suf = l := by
  unfold trimSuffix
  rw [List.length_append, Nat.add_sub_cancel, List.take_left]

theorem lookupStripExt_append (l : List Char) :
    lookupStripExt (l ++ chunkFileExtension) = some l := by
  unfold lookupStripExt
  rw [hasSuffix_append, if_pos rfl, trimSuffix_append]

theorem take_append_cons (xs : List Char) (c : Char) (ys : List Char) :
    (xs ++ c :: ys).take xs.length = xs :=
  List.take_left xs (c :: ys)

theorem drop_append_cons (xs : List Char) (c : Char) (ys : List Char) :
    (xs ++ c :: ys).drop (xs.length + 1) = ys := by
  have h : xs ++ c :: ys = (xs ++ [c]) ++ ys := by simp
  have hl : (xs ++ [c]).length = xs.length + 1 := by simp
  rw [h, ← hl, List.drop_left]

/-! ## Lemmas about the chunk arithmetic -/

theorem ediv_eq_of {a b q r : Int} (hb : 0 < b) (h0 : 0 ≤ r) (h1 : r < b)
    (h2 : a = b * q + r) : a / b = q := by
  rw [h2, Int.add_comm, Int.add_mul_ediv_left r q (by omega), Int.ediv_eq_zero_of_lt h0 h1]
  omega

theorem ceilAndRemainder_some {S C : Int} (hC : C ≠ 0) :
    ceilAndRemainder S C =
      some (if S.emod C > 0 then S.ediv C + 1 else S.ediv C, S.emod C) := by
  unfold ceilAndRemainder
  rw [if_neg hC]
  by_cases h : S.emod C > 0 <;> simp [h]

theorem getData_some {C S M : Int} (hC : C ≠ 0) :
    getData C S M =
      some ⟨if S.emod C > 0 then S.ediv C + 1 else S.ediv C, S.emod C, M⟩ := by
  unfold getData
  rw [ceilAndRemainder_some hC]

/-- The full characterisation of getData for a positive chunk size and a
non-negative source size: the mtime and the remainder pass through, and
the chunk count is the non-negative integer ceiling of size over chunk
size. -/
theorem numberOfChunks_spec {C S M : Int} (hC : 0 < C) (hS : 0 ≤ S) :
    ∃ d, getData C S M = some d ∧
      d.lastChunkSize = S.emod C ∧ d.mtime = M ∧
      0 ≤ d.numberOfChunks ∧ d.numberOfChunks ≤ S ∧
      S ≤ C * d.numberOfChunks ∧
      (0 < d.numberOfChunks → C * (d.numberOfChunks - 1) < S) ∧
      d.numberOfChunks = (S + C - 1) / C ∧
      (S = 0 → d.numberOfChunks = 0) := by
  have hq : C * S.ediv C + S.emod C = S := Int.ediv_add_emod S C
  have hr0 : 0 ≤ S.emod C := Int.emod_nonneg S (by omega)
  have hrC : S.emod C < C := Int.emod_lt_of_pos S hC
  have hq0 : 0 ≤ S.ediv C := Int.ediv_nonneg hS (by omega)
  have hqq : S.ediv C ≤ C * S.ediv C := le_mul_of_one_le_left hq0 (by omega)
  have hmul1 : C * (S.ediv C + 1) = C * S.ediv C + C := by ring
  have hmul2 : C * (S.ediv C + 1 - 1) = C * S.ediv C := by ring
  have hmul3 : C * (S.ediv C - 1) = C * S.ediv C - C := by ring
  refine ⟨_, getData_some (by omega), rfl, rfl, ?_, ?_, ?_, ?_, ?_, ?_⟩ <;>
    by_cases hr : S.emod C > 0
  · simp only [if_pos hr]; omega
  · simp only [if_neg hr]; omega
  · simp only [if_pos hr]; omega
  · simp only [if_neg hr]; omega
  · simp only [if_pos hr]; omega
  · simp only [if_neg hr]; omega
  · simp only [if_pos hr]; intro h0; omega
  · simp only [if_neg hr]; intro h0; omega
  · simp only [if_pos hr]
    exact (@ediv_eq_of (S + C - 1) C (S.ediv C + 1) (S.emod C - 1) hC
      (by omega) (by omega) (by omega)).symm
  · simp only [if_neg hr]
    exact (@ediv_eq_of (S + C - 1) C (S.ediv C) (C - 1) hC
      (by omega) (by omega) (by omega)).symm
  · simp only [if_pos hr]; omega
  · simp only [if_neg hr]; omega

/-! ## Lemmas about the filename codec -/

theorem decimalInt_chars (m : Int) :
    ∀ c ∈ decimalInt m, c = '-' ∨ ('0' ≤ c ∧ c ≤ '9') := by
  unfold decimalInt
  split
  · intro c hc
    rcases List.mem_cons.mp hc with h | h
    · exact Or.inl h
    · exact Or.inr (decimalNat_all_digit _ c h)
  · intro c hc
    exact Or.inr (decimalNat_all_digit _ c hc)

theorem decimalInt_ne (m : Int) {sep : Char} (h1 : sep ≠ '-')
    (h2 : ¬('0' ≤ sep ∧ sep ≤ '9')) : ∀ c ∈ decimalInt m, c ≠ sep := by
  intro c hc
  rcases decimalInt_chars m c hc with h | h
  · subst h; exact fun hh => h1 hh.symm
  · exact digit_ne_of sep h h2

theorem padInt_ne {n : Int} (hn : 0 ≤ n) {sep : Char} (h2 : ¬('0' ≤ sep ∧ sep ≤ '9'))
    (w : Nat) : ∀ c ∈ padInt w n, c ≠ sep := by
  rw [padInt_nonneg hn]
  intro c hc
  exact digit_ne_of sep (padLeftZeros_all_digit w n.toNat c hc) h2

theorem mtimePart_on {fs : SplitFS} (h : fs.filenameIncludesMtime = true) (m : Int) :
    mtimePart fs m = '.' :: (mtimeLabel ++ ('=' :: decimalInt m)) := by
  unfold mtimePart
  rw [h]
  simp

theorem mtimePart_off {fs : SplitFS} (h : fs.filenameIncludesMtime = false) (m : Int) :
    mtimePart fs m = [] := by
  unfold mtimePart
  rw [h]
  simp

theorem lookupMtime_off {fs : SplitFS} (h : fs.filenameIncludesMtime = false)
    (name : List Char) : lookupMtime fs name = some (0, name) := by
  unfold lookupMtime
  rw [h]
  simp

theorem lookupMtime_on {fs : SplitFS} (h : fs.filenameIncludesMtime = true)
    (body : List Char) {m : Int} (hm0 : -(2 ^ 63) ≤ m) (hm1 : m < 2 ^ 63) :
    lookupMtime fs (body ++ '.' :: (mtimeLabel ++ ('=' :: decimalInt m)))
      = some (m, body) := by
  have hdot : ∀ c ∈ mtimeLabel ++ ('=' :: decimalInt m), c ≠ '.' := by
    intro c hc
    rcases List.mem_append.mp hc with h1 | h1
    · fin_cases h1 <;> decide
    · rcases List.mem_cons.mp h1 with h2 | h2
      · subst h2; decide
      · exact decimalInt_ne m (by decide) (by decide) c h2
  have hlabne : ∀ c ∈ mtimeLabel, c ≠ '=' := by
    intro c hc; fin_cases hc <;> decide
  have hvalne : ∀ c ∈ decimalInt m, c ≠ '=' := decimalInt_ne m (by decide) (by decide)
  unfold lookupMtime
  rw [h]
  simp only [if_true, lastIndexOf_append body hdot, drop_append_cons,
    splitOnChar_append (decimalInt m) hlabne, splitOnChar_no_sep hvalne,
    parseInt64_decimalInt hm0 hm1, take_append_cons]

theorem lookupParts_total {fs : SplitFS} (h : fs.filenameIncludesTotalChunks = true)
    {hash idxs tots : List Char} (hhash : ∀ c ∈ hash, c ≠ '_')
    (hidx : ∀ c ∈ idxs, c ≠ '_') (htot : ∀ c ∈ tots, c ≠ '_') :
    lookupParts fs (hash ++ '_' :: (idxs ++ '_' :: (ofLabel ++ '_' :: tots)))
      = some (hash, idxs, some tots) := by
  have hof : ∀ c ∈ ofLabel, c ≠ '_' := by
    intro c hc; fin_cases hc <;> decide
  unfold lookupParts
  rw [splitOnChar_append _ hhash, splitOnChar_append _ hidx,
    splitOnChar_append _ hof, splitOnChar_no_sep htot, h]
  simp

theorem lookupParts_noTotal {fs : SplitFS} (h : fs.filenameIncludesTotalChunks = false)
    {hash idxs : List Char} (hhash : ∀ c ∈ hash, c ≠ '_')
    (hidx : ∀ c ∈ idxs, c ≠ '_') :
    lookupParts fs (hash ++ '_' :: idxs) = some (hash, idxs, none) := by
  unfold lookupParts
  rw [splitOnChar_append _ hhash, splitOnChar_no_sep hidx, h]

theorem lookupResolve_format {fs : SplitFS} (hash : List Char) {S M idx : Int}
    (hC : 0 < fs.chunkSize) (hS0 : 0 ≤ S) (hS1 : S < 2 ^ 63)
    {d : FileAsDirData} (hd : getData fs.chunkSize S M = some d)
    (hi1 : 1 ≤ idx) (hi2 : idx ≤ d.numberOfChunks)
    (mtimeParsed : Int) (hmt : fs.filenameIncludesMtime = true → mtimeParsed = d.mtime)
    {totalPart : Option (List Char)}
    (htp : totalPart = if fs.filenameIncludesTotalChunks then
             some (padInt minFormatZeroes d.numberOfChunks) else none) :
    lookupResolve fs hash S M mtimeParsed hash (padInt minFormatZeroes idx) totalPart
      = some ⟨idx - 1, (idx - 1) * fs.chunkSize,
              if idx = d.numberOfChunks then d.lastChunkSize else fs.chunkSize⟩ := by
  obtain ⟨d2, hg, hlast, hmtime, hn0, hnS, hSC, hlow, hceil, hzero⟩ :=
    @numberOfChunks_spec fs.chunkSize S M hC hS0
  have hdd : d2 = d := by rw [hg] at hd; exact Option.some.inj hd
  subst hdd
  have hn63 : d2.numberOfChunks < 2 ^ 63 := by omega
  have hidx63 : idx < 2 ^ 63 := by omega
  have hpidx : parseInt64 (padInt minFormatZeroes idx) = some idx :=
    parseInt64_padInt (by omega) hidx63
  have hptot : parseInt64 (padInt minFormatZeroes d2.numberOfChunks)
      = some d2.numberOfChunks := parseInt64_padInt hn0 hn63
  have h0idx : ¬ idx < 0 := by omega
  have hrange : ¬ (idx - 1 ≥ d2.numberOfChunks) := by omega
  have hsz : ((idx - 1 = d2.numberOfChunks - 1)) = ((idx = d2.numberOfChunks)) := by
    apply propext
    constructor <;> (intro hh; omega)
  subst htp
  unfold lookupResolve
  by_cases htc : fs.filenameIncludesTotalChunks <;>
    by_cases hmc : fs.filenameIncludesMtime
  · have hmp : mtimeParsed = d2.mtime := hmt hmc
    simp only [htc, hmc, hmp, hpidx, hptot, hd, eq_self_iff_true, if_true,
      if_neg h0idx, ne_eq, not_true_eq_false, and_false, if_false, hsz,
      if_neg hrange]
  · simp only [htc, hmc, hpidx, hptot, hd, eq_self_iff_true, if_true,
      if_neg h0idx, Bool.false_eq_true, false_and, if_false, hsz,
      if_neg hrange]
  · have hmp : mtimeParsed = d2.mtime := hmt hmc
    simp only [htc, hmc, hmp, hpidx, hd, eq_self_iff_true, if_true,
      Bool.false_eq_true, if_false, if_neg h0idx, ne_eq, not_true_eq_false,
      and_false, hsz, if_neg hrange]
  · simp only [htc, hmc, hpidx, hd, eq_self_iff_true, if_true,
      Bool.false_eq_true, if_false, if_neg h0idx, false_and, hsz,
      if_neg hrange]

/-- The codec round trip: a chunk filename formatted by the ReadDirAll
side for a valid index, with the total and mtime fields taken from the
current getData, is accepted by Lookup under any of the four filename
policies, and Lookup rebuilds exactly the chunk the index denotes. -/
theorem chunk_filename_roundtrip_core (fs : SplitFS) (hash : List Char)
    {S M idx : Int}
    (hC : 0 < fs.chunkSize) (hS0 : 0 ≤ S) (hS1 : S < 2 ^ 63)
    (hM0 : -(2 ^ 63) ≤ M) (hM1 : M < 2 ^ 63)
    (hhash : ∀ c ∈ hash, c ≠ '_')
    {d : FileAsDirData} (hd : getData fs.chunkSize S M = some d)
    (hi1 : 1 ≤ idx) (hi2 : idx ≤ d.numberOfChunks) :
    fileAsDirLookup fs hash S M
        (formatChunkName fs hash idx d.numberOfChunks d.mtime)
      = some ⟨idx - 1, (idx - 1) * fs.chunkSize,
              if idx = d.numberOfChunks then d.lastChunkSize else fs.chunkSize⟩ := by
  obtain ⟨d2, hg, hlast, hmtime, hn0, hnS, hSC, hlow, hceil, hzero⟩ :=
    @numberOfChunks_spec fs.chunkSize S M hC hS0
  have hdd : d2 = d := by rw [hg] at hd; exact Option.some.inj hd
  subst hdd
  have hMd : d2.mtime = M := hmtime
  have hpidxne : ∀ c ∈ padInt minFormatZeroes idx, c ≠ '_' :=
    padInt_ne (by omega) (by decide) _
  have hptotne : ∀ c ∈ padInt minFormatZeroes d2.numberOfChunks, c ≠ '_' :=
    padInt_ne hn0 (by decide) _
  have hmb0 : -(2 ^ 63) ≤ d2.mtime := by omega
  have hmb1 : d2.mtime < 2 ^ 63 := by omega
  by_cases htc : fs.filenameIncludesTotalChunks <;>
    by_cases hmc : fs.filenameIncludesMtime
  · have hname : formatChunkName fs hash idx d2.numberOfChunks d2.mtime =
        ((hash ++ '_' :: (padInt minFormatZeroes idx ++ '_' ::
          (ofLabel ++ '_' :: padInt minFormatZeroes d2.numberOfChunks))) ++
          ('.' :: (mtimeLabel ++ ('=' :: decimalInt d2.mtime)))) ++
          chunkFileExtension := by
      simp [formatChunkName, htc, mtimePart_on hmc, ofLabel, List.append_assoc]
    rw [hname]
    unfold fileAsDirLookup
    rw [lookupStripExt_append]
    simp only [lookupMtime_on hmc _ hmb0 hmb1,
      lookupParts_total htc hhash hpidxne hptotne]
    exact lookupResolve_format hash hC hS0 hS1 hd hi1 hi2 _
      (fun _ => rfl) (by rw [if_pos htc])
  · have hmcF : fs.filenameIncludesMtime = false := Bool.of_not_eq_true hmc
    have hname : formatChunkName fs hash idx d2.numberOfChunks d2.mtime =
        (hash ++ '_' :: (padInt minFormatZeroes idx ++ '_' ::
          (ofLabel ++ '_' :: padInt minFormatZeroes d2.numberOfChunks))) ++
          chunkFileExtension := by
      simp [formatChunkName, htc, mtimePart_off hmcF, ofLabel, List.append_assoc]
    rw [hname]
    unfold fileAsDirLookup
    rw [lookupStripExt_append]
    simp only [lookupMtime_off hmcF, lookupParts_total htc hhash hpidxne hptotne]
    exact lookupResolve_format hash hC hS0 hS1 hd hi1 hi2 _
      (fun hcontra => absurd hcontra hmc) (by rw [if_pos htc])
  · have htcF : fs.filenameIncludesTotalChunks = false := Bool.of_not_eq_true htc
    have hname : formatChunkName fs hash idx d2.numberOfChunks d2.mtime =
        ((hash ++ '_' :: padInt minFormatZeroes idx) ++
          ('.' :: (mtimeLabel ++ ('=' :: decimalInt d2.mtime)))) ++
          chunkFileExtension := by
      simp [formatChunkName, htcF, mtimePart_on hmc, List.append_assoc]
    rw [hname]
    unfold fileAsDirLookup
    rw [lookupStripExt_append]
    simp only [lookupMtime_on hmc _ hmb0 hmb1,
      lookupParts_noTotal htcF hhash hpidxne]
    exact lookupResolve_format hash hC hS0 hS1 hd hi1 hi2 _
      (fun _ => rfl) (by rw [if_neg htc])
  · have htcF : fs.filenameIncludesTotalChunks = false := Bool.of_not_eq_true htc
    have hmcF : fs.filenameIncludesMtime = false := Bool.of_not_eq_true hmc
    have hname : formatChunkName fs hash idx d2.numberOfChunks d2.mtime =
        (hash ++ '_' :: padInt minFormatZeroes idx) ++ chunkFileExtension := by
      simp [formatChunkName, htcF, mtimePart_off hmcF, List.append_assoc]
    rw [hname]
    unfold fileAsDirLookup
    rw [lookupStripExt_append]
    simp only [lookupMtime_off hmcF, lookupParts_noTotal htcF hhash hpidxne]
    exact lookupResolve_format hash hC hS0 hS1 hd hi1 hi2 _
      (fun hcontra => absurd hcontra hmc) (by rw [if_neg htc])

/-! ## Bitwise support lemmas for the mode mask -/

theorem masked_mode_no_write (x : Nat) :
    ((x &&& 0o555) ||| modeDirBit) &&& 0o222 = 0 := by
  unfold modeDirBit
  have h1 : ((x &&& 0o555) ||| (2 ^ 31)) &&& 0o222
      = ((x &&& 0o555) &&& 0o222) ||| ((2 ^ 31) &&& 0o222) := by
    apply Nat.eq_of_testBit_eq
    intro i
    simp [Nat.testBit_and, Nat.testBit_or, Bool.and_or_distrib_right]
  rw [h1, Nat.land_assoc, (by decide : (365 &&& 146 : Nat) = 0),
    (by decide : ((2 : Nat) ^ 31 &&& 146) = 0)]
  simp

theorem masked_mode_dir_bit (x : Nat) :
    ((x &&& 0o555) ||| modeDirBit) &&& modeDirBit = modeDirBit := by
  unfold modeDirBit
  have h1 : ((x &&& 0o555) ||| (2 ^ 31)) &&& (2 ^ 31)
      = ((x &&& 0o555) &&& (2 ^ 31)) ||| ((2 ^ 31) &&& (2 ^ 31)) := by
    apply Nat.eq_of_testBit_eq
    intro i
    simp [Nat.testBit_and, Nat.testBit_or, Bool.and_or_distrib_right]
  rw [h1, Nat.land_assoc, (by decide : (365 &&& 2 ^ 31 : Nat) = 0),
    (by decide : ((2 : Nat) ^ 31 &&& 2 ^ 31) = 2 ^ 31)]
  simp

/-! ## Support lemma for the windowed read -/

theorem c8_slice_spec (content : List Nat) (t N : Nat) (o size_ : Int) (s : Nat)
    (hbound : (N : Int) ≤ max 0 (min (s : Int) (size_ - o)))
    (hwin : ∀ j : Nat, j < N → (j : Int) + o < size_)
    (hempty : size_ ≤ o → N = 0) :
    ((((content.drop t).take N).length : Int) ≤ max 0 (min (s : Int) (size_ - o))) ∧
    (∀ j : Nat, j < ((content.drop t).take N).length →
      ((content.drop t).take N)[j]? = content[t + j]?) ∧
    (∀ j : Nat, j < ((content.drop t).take N).length → (j : Int) + o < size_) ∧
    (size_ ≤ o → (content.drop t).take N = []) := by
  have hlen : ((content.drop t).take N).length = min N (content.length - t) := by
    simp [List.length_take, List.length_drop]
  refine ⟨?_, ?_, ?_, ?_⟩
  · omega
  · intro j hj
    have hjN : j < N := by omega
    rw [List.getElem?_take, if_pos hjN, List.getElem?_drop]
  · intro j hj
    exact hwin j (by omega)
  · intro hso
    have hN : N = 0 := hempty hso
    simp [hN]

/-! ## Claim theorems -/

/-- C1: evaluation at the failing input.  For source size 10 and chunk
size 10 (an exact positive multiple, one chunk), getData stores last
chunk size 10 mod 10 = 0 and Lookup of the well-formed name of the only
chunk returns a chunk of size 0, where the claim requires size equal to
the chunk size 10. -/
theorem claim_C1_exact_multiple_size_zero :
    getData 10 10 0 = some ⟨1, 0, 0⟩ ∧
    fileAsDirLookup sampleFS ['h'] 10 0 exactMultipleName = some ⟨0, 0, 0⟩ ∧
    (fileAsDirLookup sampleFS ['h'] 10 0 exactMultipleName).map FileChunk.size
      ≠ some 10 := by
  refine ⟨rfl, rfl, ?_⟩
  decide

/-- C2: evaluation at the failing input.  A syntactically well-formed
name carrying the 1-based index 0 (with the correct hash and total) is
not rejected: Lookup accepts it and returns a chunk with 0-based index
-1 and offset -10, because the guard tests the parsed index against 0
before the decrement instead of against 1. -/
theorem claim_C2_index_zero_accepted :
    fileAsDirLookup sampleFS ['h'] 5 0 indexZeroName = some ⟨-1, -10, 10⟩ ∧
    fileAsDirLookup sampleFS ['h'] 5 0 indexZeroName ≠ none := by
  refine ⟨rfl, ?_⟩
  decide

/-- C3: counterexample.  A host listing returned in the order "b", "a"
is emitted by Directory.ReadDirAll in the order "a", "b": the names are
re-sorted, so the enumeration does not mirror the host order. -/
theorem claim_C3_counterexample :
    (directoryReadDirAll sampleFS [] [hostB, hostA]).map Dirent.name
      ≠ [hostB, hostA].map HostFileInfo.name := by
  decide

/-- C3 amended: Directory.ReadDirAll emits exactly the entries of the
host listing, re-sorted into ascending filename order (ioutil.ReadDir
sorts by name); the host order is reproduced only when it is already
sorted. -/
theorem claim_C3_sorted_permutation (fs : SplitFS) (dirRel : List Char)
    (entries : List HostFileInfo) :
    List.Sorted (· ≤ ·) ((directoryReadDirAll fs dirRel entries).map Dirent.name) ∧
    ((directoryReadDirAll fs dirRel entries).map Dirent.name).Perm
      (entries.map HostFileInfo.name) := by
  unfold directoryReadDirAll ioutilReadDir
  rw [List.map_map]
  constructor
  · exact List.Pairwise.map _ (fun a b h => h)
      (List.sorted_insertionSort byName entries)
  · exact (List.perm_insertionSort byName entries).map _

/-- C4: counterexample.  With hash-derived inode base 2000 and source
stat inode 1000, the readdir entries of a three-chunk file carry inodes
2001, 2002, 2003, but the Attr of chunk 0 reports inode 1001: the Attr
side adds the 1-based index to the source stat inode, not to the
hash-derived base, so the two disagree. -/
theorem claim_C4_counterexample :
    (fileAsDirReadDirAll sampleFS ['h'] 2000 25 0).map
        (fun es => es.map Dirent.inode) = some [2001, 2002, 2003] ∧
    (fileChunkAttr ⟨1000, 100, 1, 0o644⟩ ⟨0, 0, 10⟩).map Attr.inode = some 1001 ∧
    (1001 : Nat) ≠ 2001 := by
  refine ⟨rfl, rfl, ?_⟩
  decide

/-- C4 amended: the dirent of chunk i produced by FileAsDir.ReadDirAll
carries inode (inodeBase + (i + 1)) mod 2^64 where inodeBase is the
64-bit value of the filename-hash digest of the root-relative path, as
installed by Directory.Lookup; the Chunk Attr inode is instead the
source stat inode plus (chunk + 1) under uint64 wrap.  The two agree
only when the hash-derived base equals the stat inode. -/
theorem claim_C4_inode_sources (fs : SplitFS) (rel hash : List Char)
    (inodeBase : Nat) (hdg : fs.hashDigest rel = (hash, inodeBase))
    (dirRel childName : List Char) (hrel : joinPath dirRel childName = rel)
    (hx : fs.isExcluded (joinPath (joinPath fs.sourceDirectory dirRel) childName)
      = false)
    (S M : Int) {d : FileAsDirData} (hd : getData fs.chunkSize S M = some d)
    (i : Nat) (hi : i < d.numberOfChunks.toNat) (a : Attr) (c : FileChunk) :
    directoryLookup fs dirRel childName FileModeKind.regular
      = LookupNode.fileAsDirNode rel hash inodeBase ∧
    (fileAsDirReadDirAll fs hash inodeBase S M).map
        (fun es => es[i]?.map Dirent.inode)
      = some (some ((inodeBase + (i + 1)) % 2 ^ 64)) ∧
    (fileChunkAttr a c).map Attr.inode
      = some ((a.inode + u64 (c.chunk + 1)) % 2 ^ 64) := by
  refine ⟨?_, ?_, ?_⟩
  · simp [directoryLookup, hrel, hx, hdg]
  · unfold fileAsDirReadDirAll
    rw [hd]
    simp [List.getElem?_map, List.getElem?_range hi]
  · unfold fileChunkAttr
    rw [ceilAndRemainder_some (by norm_num : (512 : Int) ≠ 0)]
    rfl

/-- C4 witness: a concrete three-chunk file whose dirent 1 carries inode
2002 from the hash base while the Attr of a chunk starts from the stat
inode. -/
theorem claim_C4_inode_sources_witness :
    (sampleFS.hashDigest ['a'] = (['h'], 2000) ∧
      getData sampleFS.chunkSize 25 0 = some ⟨3, 5, 0⟩ ∧ 1 < (3 : Int).toNat) ∧
    (directoryLookup sampleFS [] ['a'] FileModeKind.regular
      = LookupNode.fileAsDirNode ['a'] ['h'] 2000 ∧
    (fileAsDirReadDirAll sampleFS ['h'] 2000 25 0).map
        (fun es => es[1]?.map Dirent.inode)
      = some (some ((2000 + (1 + 1)) % 2 ^ 64)) ∧
    (fileChunkAttr ⟨1000, 100, 1, 0o644⟩ ⟨0, 0, 10⟩).map Attr.inode
      = some (((1000 : Nat) + u64 ((0 : Int) + 1)) % 2 ^ 64)) := by
  refine ⟨⟨rfl, rfl, by decide⟩, ?_⟩
  exact claim_C4_inode_sources sampleFS ['a'] ['h'] 2000 rfl [] ['a'] rfl rfl
    25 0 (show getData sampleFS.chunkSize 25 0 = some ⟨3, 5, 0⟩ from rfl) 1
    (by decide) ⟨1000, 100, 1, 0o644⟩ ⟨0, 0, 10⟩

/-- C5: counterexample.  A source file with permission bits 0644 is
reported by FileAsDir.Attr with mode (0644 AND 0555) OR dir
= 0444 OR dir, not the claimed 0555 OR dir: the mode is masked with
0555, not forced to it. -/
theorem claim_C5_counterexample :
    (fileAsDirAttr ⟨7, 100, 1, 0o644⟩).mode ≠ 0o555 ||| modeDirBit ∧
    (fileAsDirAttr ⟨7, 100, 1, 0o644⟩).mode = 0o444 ||| modeDirBit := by
  constructor
  · decide
  · rfl

/-- C5 amended: FileAsDir.Attr replaces the mode with
(source mode AND 0555) OR the directory bit: the write bits are always
cleared, the directory bit is always set, and the result equals
0555 OR dir exactly on sources that had all read and execute bits. -/
theorem claim_C5_mode_masked (a : Attr) :
    (fileAsDirAttr a).mode = (a.mode &&& 0o555) ||| modeDirBit ∧
    (fileAsDirAttr a).mode &&& 0o222 = 0 ∧
    (fileAsDirAttr a).mode &&& modeDirBit = modeDirBit ∧
    (a.mode &&& 0o555 = 0o555 →
      (fileAsDirAttr a).mode = 0o555 ||| modeDirBit) := by
  refine ⟨rfl, masked_mode_no_write a.mode, masked_mode_dir_bit a.mode, ?_⟩
  intro h
  show (a.mode &&& 0o555) ||| modeDirBit = 0o555 ||| modeDirBit
  rw [h]

/-- C5 witness: a source with mode 0755 has all read and execute bits,
and its FileAsDir mode is exactly 0555 with the directory bit. -/
theorem claim_C5_mode_masked_witness :
    (0o755 &&& 0o555 : Nat) = 0o555 ∧
    (fileAsDirAttr ⟨7, 100, 1, 0o755⟩).mode = 0o555 ||| modeDirBit :=
  ⟨by decide, (claim_C5_mode_masked ⟨7, 100, 1, 0o755⟩).2.2.2 (by decide)⟩

/-- C6: for chunk size C > 0 and source size S ≥ 0, getData yields
num chunks = ceil(S / C) — written (S + C - 1) / C and characterised by
S ≤ C * n with C * (n - 1) < S for positive n — ReadDirAll lists exactly
that many entries, and a zero-size source gives an empty listing. -/
theorem claim_C6_chunk_count (fs : SplitFS) (hash : List Char) (inodeBase : Nat)
    (S M : Int) (hC : 0 < fs.chunkSize) (hS : 0 ≤ S) :
    ∃ d, getData fs.chunkSize S M = some d ∧
      d.numberOfChunks = (S + fs.chunkSize - 1) / fs.chunkSize ∧
      S ≤ fs.chunkSize * d.numberOfChunks ∧
      (0 < d.numberOfChunks → fs.chunkSize * (d.numberOfChunks - 1) < S) ∧
      (fileAsDirReadDirAll fs hash inodeBase S M).map List.length
        = some d.numberOfChunks.toNat ∧
      (S = 0 → fileAsDirReadDirAll fs hash inodeBase S M = some []) := by
  obtain ⟨d, hg, hlast, hmtime, hn0, hnS, hSC, hlow, hceil, hzero⟩ :=
    @numberOfChunks_spec fs.chunkSize S M hC hS
  refine ⟨d, hg, hceil, hSC, hlow, ?_, ?_⟩
  · unfold fileAsDirReadDirAll
    rw [hg]
    simp
  · intro h0
    unfold fileAsDirReadDirAll
    rw [hg]
    simp [hzero h0]

/-- C6 witness: chunk size 10 and source size 25 give three chunks. -/
theorem claim_C6_chunk_count_witness :
    (0 < sampleFS.chunkSize ∧ (0 : Int) ≤ 25) ∧
    ∃ d, getData sampleFS.chunkSize 25 0 = some d ∧
      d.numberOfChunks = (25 + sampleFS.chunkSize - 1) / sampleFS.chunkSize ∧
      25 ≤ sampleFS.chunkSize * d.numberOfChunks ∧
      (0 < d.numberOfChunks → sampleFS.chunkSize * (d.numberOfChunks - 1) < 25) ∧
      (fileAsDirReadDirAll sampleFS ['h'] 0 25 0).map List.length
        = some d.numberOfChunks.toNat ∧
      ((25 : Int) = 0 → fileAsDirReadDirAll sampleFS ['h'] 0 25 0 = some []) :=
  ⟨⟨by decide, by decide⟩,
    claim_C6_chunk_count sampleFS ['h'] 0 25 0 (by decide) (by decide)⟩

/-- C7: parse after format.  Under every combination of the total-chunks
and mtime policies, the name of entry i produced by
FileAsDir.ReadDirAll (which formats the tuple of the node digest, the
1-based index i + 1, the current chunk count and the current truncated
mtime) is accepted by FileAsDir.Lookup, which returns the chunk with the
same 0-based index i and offset i * chunk size. -/
theorem claim_C7_roundtrip (fs : SplitFS) (hash : List Char) (inodeBase : Nat)
    (S M : Int) (hC : 0 < fs.chunkSize) (hS0 : 0 ≤ S) (hS1 : S < 2 ^ 63)
    (hM0 : -(2 ^ 63) ≤ M) (hM1 : M < 2 ^ 63)
    (hhash : ∀ ch ∈ hash, ch ≠ '_')
    {es : List Dirent} (hes : fileAsDirReadDirAll fs hash inodeBase S M = some es)
    (i : Nat) {e : Dirent} (he : es[i]? = some e) :
    ∃ d, getData fs.chunkSize S M = some d ∧
      fileAsDirLookup fs hash S M e.name
        = some ⟨(i : Int), (i : Int) * fs.chunkSize,
                if (i : Int) + 1 = d.numberOfChunks then d.lastChunkSize
                else fs.chunkSize⟩ := by
  obtain ⟨d, hg, hlast, hmtime, hn0, hnS, hSC, hlow, hceil, hzero⟩ :=
    @numberOfChunks_spec fs.chunkSize S M hC hS0
  refine ⟨d, hg, ?_⟩
  unfold fileAsDirReadDirAll at hes
  rw [hg] at hes
  have hes2 : es = (List.range d.numberOfChunks.toNat).map fun i =>
      ({ inode := (inodeBase + (i + 1)) % 2 ^ 64
         dtype := .file
         name := formatChunkName fs hash ((i : Int) + 1) d.numberOfChunks d.mtime }
        : Dirent) := (Option.some.inj hes).symm
  subst hes2
  rw [List.getElem?_map] at he
  by_cases hi : i < d.numberOfChunks.toNat
  · rw [List.getElem?_range hi] at he
    have he2 : e = { inode := (inodeBase + (i + 1)) % 2 ^ 64
                     dtype := .file
                     name := formatChunkName fs hash ((i : Int) + 1)
                       d.numberOfChunks d.mtime } := (Option.some.inj he).symm
    subst he2
    have hi2 : (i : Int) + 1 ≤ d.numberOfChunks := by omega
    have hcore := chunk_filename_roundtrip_core fs hash hC hS0 hS1 hM0 hM1
      hhash hg (by omega) hi2
    have hsub1 : (i : Int) + 1 - 1 = (i : Int) := by ring
    rw [hsub1] at hcore
    exact hcore
  · rw [List.getElem?_eq_none (by simpa using hi)] at he
    exact absurd he (by simp)

/-- C7 witness: the second of the three chunk names of a 25-byte source
under chunk size 10 parses back to chunk 1 at offset 10. -/
theorem claim_C7_roundtrip_witness :
    ∃ d, getData sampleFS.chunkSize 25 0 = some d ∧
      fileAsDirLookup sampleFS ['h'] 25 0 roundtripName
        = some ⟨((1 : Nat) : Int), ((1 : Nat) : Int) * sampleFS.chunkSize,
                if ((1 : Nat) : Int) + 1 = d.numberOfChunks then d.lastChunkSize
                else sampleFS.chunkSize⟩ := by
  have h := claim_C7_roundtrip sampleFS ['h'] 0 25 0 (by decide) (by decide)
    (by decide) (by decide) (by decide) (by decide) rfl 1
    (e := ⟨2, DirentType.file, roundtripName⟩) (by decide)
  exact h

/-- C8: the windowed read never fails for a non-negative request offset,
returns at most max 0 (min s (size - o)) bytes, takes byte j from source
position (o + offset) + j — inside the half-open chunk window — returns
nothing for a request at or past the chunk end, and end of file shows up
as a short read (the result stays some). -/
theorem claim_C8_windowed_read (content : List Nat) (c : FileChunk)
    (hdl : FileHandle) (o : Int) (s : Nat) (ho : 0 ≤ o) (hoff : 0 ≤ c.offset) :
    ∃ bs, (fileChunkHandleRead content c hdl o s).1 = some bs ∧
      (bs.length : Int) ≤ max 0 (min (s : Int) (c.size - o)) ∧
      (∀ j : Nat, j < bs.length → bs[j]? = content[(o + c.offset).toNat + j]?) ∧
      (∀ j : Nat, j < bs.length → (j : Int) + o < c.size) ∧
      (c.size ≤ o → bs = []) := by
  have hneg : ¬ (o + c.offset < 0) := by omega
  simp only [fileChunkHandleRead, readAt, if_neg hneg]
  split_ifs with h1 h2 h3
  · obtain ⟨hA, hB, hC, hD⟩ := c8_slice_spec content (o + c.offset).toNat
      (0 : Int).toNat o c.size s (by omega) (fun j hj => by omega) (fun _ => by omega)
    exact ⟨_, rfl, hA, hB, hC, hD⟩
  · obtain ⟨hA, hB, hC, hD⟩ := c8_slice_spec content (o + c.offset).toNat
      (c.size - o).toNat o c.size s (by omega) (fun j hj => by omega)
      (fun hso => by omega)
    exact ⟨_, rfl, hA, hB, hC, hD⟩
  · obtain ⟨hA, hB, hC, hD⟩ := c8_slice_spec content (o + c.offset).toNat
      (0 : Int).toNat o c.size s (by omega) (fun j hj => by omega) (fun _ => by omega)
    exact ⟨_, rfl, hA, hB, hC, hD⟩
  · obtain ⟨hA, hB, hC, hD⟩ := c8_slice_spec content (o + c.offset).toNat
      ((s : Int)).toNat o c.size s (by omega) (fun j hj => by omega)
      (fun hso => by omega)
    exact ⟨_, rfl, hA, hB, hC, hD⟩

/-- C8 witness: the read of 100 bytes at offset 7 of the second chunk
(offset 10, size 10) of a 30-byte file returns the three bytes before
end of file. -/
theorem claim_C8_windowed_read_witness :
    ((0 : Int) ≤ 7 ∧ (0 : Int) ≤ ((⟨1, 10, 10⟩ : FileChunk)).offset) ∧
    ∃ bs, (fileChunkHandleRead (List.range 30) ⟨1, 10, 10⟩ ⟨10⟩ 7 100).1 = some bs ∧
      (bs.length : Int) ≤ max 0 (min ((100 : Nat) : Int)
        ((⟨1, 10, 10⟩ : FileChunk).size - 7)) ∧
      (∀ j : Nat, j < bs.length →
        bs[j]? = (List.range 30)[((7 : Int) +
          (⟨1, 10, 10⟩ : FileChunk).offset).toNat + j]?) ∧
      (∀ j : Nat, j < bs.length → (j : Int) + 7 < (⟨1, 10, 10⟩ : FileChunk).size) ∧
      ((⟨1, 10, 10⟩ : FileChunk).size ≤ 7 → bs = []) :=
  ⟨⟨by decide, by decide⟩,
    claim_C8_windowed_read (List.range 30) ⟨1, 10, 10⟩ ⟨10⟩ 7 100
      (by decide) (by decide)⟩

/-- C9: a configuration accepted by NewFS has a strictly positive chunk
size; consequently ceilAndRemainder is never called with divisor 0 by
getData, and the fixed divisor 512 of fileChunk.Attr is never 0 either:
the documented panic branch of ceilAndRemainder is unreachable from the
filesystem operations. -/
theorem claim_C9_no_zero_divisor (src : List Char) (cs : Int)
    (ex : List Char → Bool) (hg : List Char → List Char × Nat)
    (it im : Bool) (fs : SplitFS)
    (h : newFS src cs ex hg it im = some fs) :
    0 < fs.chunkSize ∧
    (∀ S M : Int, (ceilAndRemainder S fs.chunkSize).isSome ∧
      (getData fs.chunkSize S M).isSome) ∧
    (∀ a : Attr, ∀ c : FileChunk, (fileChunkAttr a c).isSome) := by
  unfold newFS at h
  by_cases hcs : cs ≤ 0
  · rw [if_pos hcs] at h
    exact absurd h (by simp)
  · rw [if_neg hcs] at h
    have hfs : cs = fs.chunkSize := congrArg SplitFS.chunkSize (Option.some.inj h)
    have hpos : 0 < fs.chunkSize := by omega
    refine ⟨hpos, fun S M => ⟨?_, ?_⟩, fun a c => ?_⟩
    · rw [ceilAndRemainder_some (by omega)]
      rfl
    · rw [getData_some (by omega)]
      rfl
    · unfold fileChunkAttr
      rw [ceilAndRemainder_some (by norm_num : (512 : Int) ≠ 0)]
      rfl

/-- C9 witness: NewFS accepts chunk size 10 and the resulting getData
and chunk Attr succeed. -/
theorem claim_C9_no_zero_divisor_witness :
    newFS [] 10 noExclusion sampleDigest true false = some sampleFS ∧
    0 < sampleFS.chunkSize ∧ (getData sampleFS.chunkSize 25 0).isSome ∧
    (fileChunkAttr ⟨7, 100, 1, 0⟩ ⟨0, 0, 10⟩).isSome := by
  have h : newFS [] 10 noExclusion sampleDigest true false = some sampleFS := rfl
  have hres := claim_C9_no_zero_divisor [] 10 noExclusion sampleDigest true false
    sampleFS h
  exact ⟨h, hres.1, (hres.2.1 25 0).2, hres.2.2 ⟨7, 100, 1, 0⟩ ⟨0, 0, 10⟩⟩

/-- C10: chunk reads are positional and deterministic.  The data
returned by Read is a function of the request arguments, the chunk and
the source content alone: the handle position — whatever it was left at
by the Seek in Open or by any earlier sequence of reads through the same
handle — does not influence the result, and Read leaves it unchanged, so
identical requests against unchanged content return identical bytes. -/
theorem claim_C10_positional_reads (content : List Nat) (c : FileChunk)
    (reqs1 reqs2 : List (Int × Nat)) (o : Int) (s : Nat) :
    (fileChunkHandleRead content c
        (runRequests content c (fileChunkOpen c) reqs1) o s).1
      = (fileChunkHandleRead content c
          (runRequests content c (fileChunkOpen c) reqs2) o s).1 ∧
    (∀ hdl : FileHandle, (fileChunkHandleRead content c hdl o s).2 = hdl) ∧
    (∀ hdl1 hdl2 : FileHandle,
      (fileChunkHandleRead content c hdl1 o s).1
        = (fileChunkHandleRead content c hdl2 o s).1) :=
  ⟨rfl, fun _ => rfl, fun _ _ => rfl⟩

end Splitfs
